import Mathlib

/-!
Verification of the elbow-point hyperparameter selector authored in
`Modeling+Weather+Geographies+on+Hadoop+using+Scikit-Learn_py27.ipynb`:

```
slope = (val_mad[-1]-val_mad[0])/(n_est[-1]-n_est[0])
intercept = val_mad[0] - slope*n_est[0]
best_n = (np.array(n_est)*slope+intercept-np.array(val_mad)).argmax()
print("The best value of n is {}.".format(n_est[best_n]))
```

`n_est` is a list of integers (`list(range(1,201))` in the notebook) and
`val_mad` a list of validation errors.  The embedding models the parameter
list as `List ℤ` and the error list as `List ℚ` (exact arithmetic in place
of IEEE-754 doubles), and models the Python failure modes explicitly:
indexing an empty list raises `IndexError`, dividing by an integer zero
raises `ZeroDivisionError`, and a numpy shape mismatch that 1-d
broadcasting cannot fix raises `ValueError`.
-/

namespace Elbow

/-- The Python/numpy exceptions the cell can raise. -/
inductive PyError where
  | indexError
  | zeroDivisionError
  | valueError
deriving DecidableEq

/-- `np.ndarray.argmax` on a nonempty list: index of the first maximum.
`bi`/`bv` are the best index and value so far, `i` the index of the head
of the remaining list. -/
def argmaxAux (bi : Nat) (bv : ℚ) (i : Nat) : List ℚ → Nat
  | [] => bi
  | x :: xs => if bv < x then argmaxAux i x (i + 1) xs else argmaxAux bi bv (i + 1) xs

/-- `np.ndarray.argmax`: first index achieving the maximum (0 on the empty
list, which numpy rejects; `best_n` never applies it to an empty array). -/
def argmax : List ℚ → Nat
  | [] => 0
  | x :: xs => argmaxAux 0 x 1 xs

/-- Line 1 of the cell: `slope = (val_mad[-1]-val_mad[0])/(n_est[-1]-n_est[0])`. -/
def slope (n_est : List ℤ) (val_mad : List ℚ) : ℚ :=
  (val_mad.getLastD 0 - val_mad.headD 0) /
    (((n_est.getLastD 0 : ℤ) : ℚ) - ((n_est.headD 0 : ℤ) : ℚ))

/-- Line 2 of the cell: `intercept = val_mad[0] - slope*n_est[0]`. -/
def intercept (n_est : List ℤ) (val_mad : List ℚ) : ℚ :=
  val_mad.headD 0 - slope n_est val_mad * ((n_est.headD 0 : ℤ) : ℚ)

/-- The numpy expression `np.array(n_est)*slope+intercept`: elementwise
scalar multiply and add. -/
def lineVals (n_est : List ℤ) (sl ic : ℚ) : List ℚ :=
  n_est.map (fun (pk : ℤ) => ((pk : ℤ) : ℚ) * sl + ic)

/-- Elementwise subtraction of two 1-d numpy arrays with numpy shape
broadcasting: equal lengths subtract pointwise, a length-1 operand is
stretched, and any other shape mismatch raises `ValueError`. -/
def bcastSub (a b : List ℚ) : Except PyError (List ℚ) :=
  if a.length = b.length then .ok (List.zipWith (fun x y => x - y) a b)
  else if a.length = 1 then .ok (b.map (fun y => a.headD 0 - y))
  else if b.length = 1 then .ok (a.map (fun x => x - b.headD 0))
  else .error .valueError

/-- The whole cell as a function of `n_est` and `val_mad`: the selected
parameter value `n_est[best_n]`, or the Python exception the cell raises.
Empty input hits `IndexError` on line 1 (`val_mad[-1]` / `n_est[-1]`);
`n_est[-1] == n_est[0]` hits `ZeroDivisionError` in the slope division
(the numerator is a float, the denominator the integer 0). -/
def best_n (n_est : List ℤ) (val_mad : List ℚ) : Except PyError ℤ :=
  if val_mad.isEmpty ∨ n_est.isEmpty then .error .indexError
  else if n_est.getLastD 0 = n_est.headD 0 then .error .zeroDivisionError
  else
    match bcastSub (lineVals n_est (slope n_est val_mad) (intercept n_est val_mad)) val_mad with
    | .error err => .error err
    | .ok dists =>
      match n_est.get? (argmax dists) with
      | some v => .ok v
      | none => .error .indexError

/-- The distances-below-the-line array of the cell in the equal-length
case: `np.array(n_est)*slope+intercept-np.array(val_mad)`. -/
def distsEq (n_est : List ℤ) (val_mad : List ℚ) : List ℚ :=
  List.zipWith (fun x y => x - y)
    (lineVals n_est (slope n_est val_mad) (intercept n_est val_mad)) val_mad

/-- The quantity `(slope * p_k + intercept) - e_k` of the specification,
at index `j` (0-based). -/
def specDist (n_est : List ℤ) (val_mad : List ℚ) (j : Nat) : ℚ :=
  slope n_est val_mad * ((n_est.getD j 0 : ℤ) : ℚ) + intercept n_est val_mad
    - val_mad.getD j 0

/-- The global variables the elbow cell touches: it reads `n_est` and
`val_mad` and assigns `slope`, `intercept` and `best_n`. -/
structure NotebookState where
  n_est : List ℤ
  val_mad : List ℚ
  slope_var : Option ℚ
  intercept_var : Option ℚ
  best_n_var : Option Nat

/-- The elbow cell as a state transformer: each assignment updates the
corresponding global, evaluation aborts at the first raised exception, and
the returned value is the printed `n_est[best_n]`. -/
def runElbowCell (s : NotebookState) : NotebookState × Except PyError ℤ :=
  if s.val_mad.isEmpty ∨ s.n_est.isEmpty then (s, .error .indexError)
  else if s.n_est.getLastD 0 = s.n_est.headD 0 then (s, .error .zeroDivisionError)
  else
    let sl := slope s.n_est s.val_mad
    let s1 := { s with slope_var := some sl }
    let ic := intercept s1.n_est s1.val_mad
    let s2 := { s1 with intercept_var := some ic }
    match bcastSub (lineVals s2.n_est sl ic) s2.val_mad with
    | .error err => (s2, .error err)
    | .ok dists =>
      let k := argmax dists
      let s3 := { s2 with best_n_var := some k }
      match s3.n_est.get? k with
      | some v => (s3, .ok v)
      | none => (s3, .error .indexError)

/-- Invariant of the `argmax` scan: either no element of the remaining
list beats the best value so far (result is the saved index `bi`), or the
result points `j` places into the remaining list, at the first element
strictly above `bv` that no element matches strictly later. -/
lemma argmaxAux_spec (xs : List ℚ) : ∀ (bi i : Nat) (bv : ℚ),
    (argmaxAux bi bv i xs = bi ∧ ∀ k, k < xs.length → xs.getD k 0 ≤ bv) ∨
    (∃ j, j < xs.length ∧ argmaxAux bi bv i xs = i + j ∧ bv < xs.getD j 0 ∧
      (∀ k, k < xs.length → xs.getD k 0 ≤ xs.getD j 0) ∧
      (∀ k, k < j → xs.getD k 0 < xs.getD j 0)) := by
  induction xs with
  | nil =>
    intro bi i bv
    left
    exact ⟨rfl, by intro k hk; simp at hk⟩
  | cons x xs ih =>
    intro bi i bv
    by_cases hx : bv < x
    · rcases ih i (i + 1) x with ⟨heq, hall⟩ | ⟨j, hj, heq, hgt, hmax, hfirst⟩
      · right
        refine ⟨0, by simp, ?_, by simpa using hx, ?_, ?_⟩
        · simpa [argmaxAux, hx] using heq
        · intro k hk
          match k with
          | 0 => simp
          | k + 1 =>
            simp only [List.getD_cons_succ, List.getD_cons_zero]
            exact hall k (by simpa using hk)
        · intro k hk; omega
      · right
        refine ⟨j + 1, by simpa using hj, ?_, ?_, ?_, ?_⟩
        · simp only [argmaxAux, if_pos hx]
          omega
        · simpa [List.getD_cons_succ] using lt_trans hx hgt
        · intro k hk
          match k with
          | 0 => simpa [List.getD_cons_succ] using le_of_lt hgt
          | k + 1 =>
            simp only [List.getD_cons_succ]
            exact hmax k (by simpa using hk)
        · intro k hk
          match k with
          | 0 => simpa [List.getD_cons_succ] using hgt
          | k + 1 =>
            simp only [List.getD_cons_succ]
            exact hfirst k (by omega)
    · rcases ih bi (i + 1) bv with ⟨heq, hall⟩ | ⟨j, hj, heq, hgt, hmax, hfirst⟩
      · left
        refine ⟨by simpa [argmaxAux, hx] using heq, ?_⟩
        intro k hk
        match k with
        | 0 => simpa using le_of_not_lt hx
        | k + 1 =>
          simp only [List.getD_cons_succ]
          exact hall k (by simpa using hk)
      · right
        refine ⟨j + 1, by simpa using hj, ?_, ?_, ?_, ?_⟩
        · simp only [argmaxAux, if_neg hx]
          omega
        · simpa [List.getD_cons_succ] using hgt
        · intro k hk
          match k with
          | 0 =>
            simp only [List.getD_cons_succ, List.getD_cons_zero]
            exact le_trans (le_of_not_lt hx) (le_of_lt hgt)
          | k + 1 =>
            simp only [List.getD_cons_succ]
            exact hmax k (by simpa using hk)
        · intro k hk
          match k with
          | 0 => exact lt_of_le_of_lt (le_of_not_lt hx) (by simpa [List.getD_cons_succ] using hgt)
          | k + 1 =>
            simp only [List.getD_cons_succ]
            exact hfirst k (by omega)

/-- On a nonempty list, `argmax` returns an in-bounds index of a maximal
element, and every strictly earlier element is strictly smaller (first
maximum, as numpy documents for ties). -/
lemma argmax_spec (l : List ℚ) (h : l ≠ []) :
    argmax l < l.length ∧
    (∀ k, k < l.length → l.getD k 0 ≤ l.getD (argmax l) 0) ∧
    (∀ k, k < argmax l → l.getD k 0 < l.getD (argmax l) 0) := by
  match l, h with
  | x :: xs, _ =>
    rcases argmaxAux_spec xs 0 1 x with ⟨heq, hall⟩ | ⟨j, hj, heq, hgt, hmax, hfirst⟩
    · have hres : argmax (x :: xs) = 0 := heq
      rw [hres]
      refine ⟨by simp, ?_, by intro k hk; omega⟩
      intro k hk
      match k with
      | 0 => simp
      | k + 1 =>
        simp only [List.getD_cons_succ, List.getD_cons_zero]
        exact hall k (by simpa using hk)
    · have hres : argmax (x :: xs) = j + 1 := by
        show argmaxAux 0 x 1 xs = j + 1
        omega
      rw [hres]
      refine ⟨by simpa using hj, ?_, ?_⟩
      · intro k hk
        match k with
        | 0 => simpa [List.getD_cons_succ] using le_of_lt hgt
        | k + 1 =>
          simp only [List.getD_cons_succ]
          exact hmax k (by simpa using hk)
      · intro k hk
        match k with
        | 0 => simpa [List.getD_cons_succ] using hgt
        | k + 1 =>
          simp only [List.getD_cons_succ]
          exact hfirst k (by omega)

/-- `headD` of a nonempty list is its entry at index 0. -/
lemma headD_eq_getD (l : List ℤ) (d : ℤ) (h : l ≠ []) :
    l.headD d = l.getD 0 d := by
  cases l with
  | nil => exact absurd rfl h
  | cons x xs => rfl

/-- `getLastD` of a nonempty list is its entry at the last index. -/
lemma getLastD_eq_getD (l : List ℤ) (d : ℤ) (h : l ≠ []) :
    l.getLastD d = l.getD (l.length - 1) d := by
  have h1 : l.length - 1 < l.length := by
    cases l with
    | nil => exact absurd rfl h
    | cons x xs => simp
  rw [List.getD_eq_getElem _ _ h1, List.getLastD_eq_getLast?,
    List.getLast?_eq_getLast _ h, List.getLast_eq_getElem]
  rfl

/-- On a strictly increasing list of length at least two, the first entry
is strictly below the last. -/
lemma headD_lt_getLastD (p : List ℤ) (hp : p.Pairwise (· < ·))
    (h2 : 2 ≤ p.length) : p.headD 0 < p.getLastD 0 := by
  have hnil : p ≠ [] := by
    intro hn
    rw [hn] at h2
    simp at h2
  rw [headD_eq_getD p 0 hnil, getLastD_eq_getD p 0 hnil,
    List.getD_eq_getElem _ _ (by omega), List.getD_eq_getElem _ _ (by omega)]
  exact List.pairwise_iff_getElem.mp hp 0 (p.length - 1) (by omega) (by omega) (by omega)

/-- With equal-length inputs, the distances array has the length of the
parameter list. -/
lemma length_distsEq (p : List ℤ) (e : List ℚ) (hlen : e.length = p.length) :
    (distsEq p e).length = p.length := by
  simp only [distsEq, List.length_zipWith, lineVals, List.length_map, hlen, min_self]

/-- With equal-length inputs, entry `j` of the distances array computed by
the cell is exactly the specification quantity `(slope * p_j + intercept) - e_j`. -/
lemma getD_distsEq (p : List ℤ) (e : List ℚ) (hlen : e.length = p.length)
    (j : Nat) (hj : j < p.length) : (distsEq p e).getD j 0 = specDist p e j := by
  have h1 : j < (distsEq p e).length := by
    rw [length_distsEq p e hlen]
    exact hj
  rw [List.getD_eq_getElem _ _ h1, specDist, List.getD_eq_getElem _ _ hj,
    List.getD_eq_getElem _ _ (by rw [hlen]; exact hj)]
  simp only [distsEq, List.getElem_zipWith, lineVals, List.getElem_map]
  ring

/-- The distances array is nonempty whenever the parameter list is. -/
lemma distsEq_ne_nil (p : List ℤ) (e : List ℚ) (h1 : 1 ≤ p.length)
    (hlen : e.length = p.length) : distsEq p e ≠ [] := by
  intro hn
  have := length_distsEq p e hlen
  rw [hn] at this
  simp at this
  omega

/-- Entries of a strictly increasing list compare strictly along indices. -/
lemma pairwise_getD_lt (p : List ℤ) (hp : p.Pairwise (· < ·)) (i j : Nat)
    (hij : i < j) (hj : j < p.length) : p.getD i 0 < p.getD j 0 := by
  rw [List.getD_eq_getElem _ _ (by omega), List.getD_eq_getElem _ _ hj]
  exact List.pairwise_iff_getElem.mp hp i j (by omega) hj hij

/-- `headD` commutes with mapping over a nonempty list. -/
lemma headD_map_rat (f : ℚ → ℚ) (l : List ℚ) (h : l ≠ []) :
    (l.map f).headD 0 = f (l.headD 0) := by
  cases l with
  | nil => exact absurd rfl h
  | cons x xs => rfl

/-- `getLastD` commutes with mapping over a nonempty list. -/
lemma getLastD_map_rat (f : ℚ → ℚ) (l : List ℚ) (h : l ≠ []) :
    (l.map f).getLastD 0 = f (l.getLastD 0) := by
  have hm : l.map f ≠ [] := by simpa using h
  rw [List.getLastD_eq_getLast?, List.getLast?_eq_getLast _ hm,
    List.getLastD_eq_getLast?, List.getLast?_eq_getLast _ h]
  simp [List.getLast_map]

/-- Shifting both operands of the elementwise subtraction by the same
constant leaves the result unchanged. -/
lemma zipWith_sub_map_add (a b : List ℚ) (c : ℚ) :
    List.zipWith (fun x y => x - y) (a.map (fun x => x + c)) (b.map (fun x => x + c))
      = List.zipWith (fun x y => x - y) a b := by
  induction a generalizing b with
  | nil => simp
  | cons x xs ih =>
    cases b with
    | nil => simp
    | cons y ys =>
      simp only [List.map_cons, List.zipWith_cons_cons]
      rw [ih]
      congr 1
      ring

/-- Shifting the intercept shifts every line value by the same constant. -/
lemma lineVals_add_const (p : List ℤ) (sl ic c : ℚ) :
    lineVals p sl (ic + c) = (lineVals p sl ic).map (fun x => x + c) := by
  rw [lineVals, lineVals, List.map_map]
  congr 1
  funext pk
  simp
  ring

/-- Broadcast subtraction is invariant under shifting both operands by the
same constant. -/
lemma bcastSub_map_add (a b : List ℚ) (c : ℚ) :
    bcastSub (a.map (fun x => x + c)) (b.map (fun x => x + c)) = bcastSub a b := by
  rw [bcastSub, bcastSub]
  simp only [List.length_map]
  by_cases h1 : a.length = b.length
  · rw [if_pos h1, if_pos h1, zipWith_sub_map_add]
  · rw [if_neg h1, if_neg h1]
    by_cases h2 : a.length = 1
    · rw [if_pos h2, if_pos h2]
      obtain ⟨x, hx⟩ := List.length_eq_one.mp h2
      subst hx
      rw [List.map_map]
      simp only [List.map_cons, List.map_nil, List.headD_cons]
      have hfg : ((fun y => x + c - y) ∘ fun x => x + c) = (fun y => x - y) := by
        funext y
        simp
      rw [hfg]
    · rw [if_neg h2, if_neg h2]
      by_cases h3 : b.length = 1
      · rw [if_pos h3, if_pos h3]
        obtain ⟨y, hy⟩ := List.length_eq_one.mp h3
        subst hy
        rw [List.map_map]
        simp only [List.map_cons, List.map_nil, List.headD_cons]
        have hfg : ((fun x => x - (y + c)) ∘ fun x => x + c) = (fun x => x - y) := by
          funext x
          simp
        rw [hfg]
      · rw [if_neg h3, if_neg h3]

/-- With a valid input (length at least two, equal lengths, first and last
parameters distinct) the cell takes the success path and returns the
parameter entry at the `argmax` of the distances array. -/
lemma best_n_eq (p : List ℤ) (e : List ℚ) (h2 : 2 ≤ p.length)
    (hlen : e.length = p.length) (hne : p.getLastD 0 ≠ p.headD 0) :
    best_n p e = .ok (p.getD (argmax (distsEq p e)) 0) := by
  have hpne : p ≠ [] := by
    intro hn
    rw [hn] at h2
    simp at h2
  have hene : e ≠ [] := by
    intro hn
    rw [hn] at hlen
    simp at hlen
    omega
  have hpe : ¬(e.isEmpty = true ∨ p.isEmpty = true) := by
    simp only [List.isEmpty_iff]
    push_neg
    exact ⟨hene, hpne⟩
  have hdne : distsEq p e ≠ [] := by
    intro hn
    have := length_distsEq p e hlen
    rw [hn] at this
    simp at this
    omega
  have hlt : argmax (distsEq p e) < p.length := by
    have h := (argmax_spec _ hdne).1
    rwa [length_distsEq p e hlen] at h
  have hb : bcastSub (lineVals p (slope p e) (intercept p e)) e
      = .ok (distsEq p e) := by
    rw [bcastSub, if_pos (by simp [lineVals, hlen])]
    rfl
  have hg : p.get? (argmax (distsEq p e)) = some (p.getD (argmax (distsEq p e)) 0) := by
    rw [List.getD_eq_getElem _ _ hlt, List.get?_eq_getElem?, List.getElem?_eq_getElem hlt]
  rw [best_n, if_neg hpe, if_neg hne]
  simp only [hb, hg]

/-- Master characterization: on a strictly increasing parameter list of
length at least two and an equal-length error list, `best_n` succeeds and
returns the parameter at an in-bounds index that maximizes the
specification quantity, every strictly earlier index being strictly
smaller. -/
lemma best_n_valid (p : List ℤ) (e : List ℚ) (hp : p.Pairwise (· < ·))
    (h2 : 2 ≤ p.length) (hlen : e.length = p.length) :
    ∃ k, k < p.length ∧ best_n p e = .ok (p.getD k 0) ∧
      (∀ j, j < p.length → specDist p e j ≤ specDist p e k) ∧
      (∀ j, j < k → specDist p e j < specDist p e k) := by
  have hne : p.getLastD 0 ≠ p.headD 0 :=
    ne_of_gt (headD_lt_getLastD p hp h2)
  have hdne : distsEq p e ≠ [] := by
    intro hn
    have := length_distsEq p e hlen
    rw [hn] at this
    simp at this
    omega
  obtain ⟨hlt, hmax, hfirst⟩ := argmax_spec _ hdne
  have hlen2 := length_distsEq p e hlen
  refine ⟨argmax (distsEq p e), by omega, best_n_eq p e h2 hlen hne, ?_, ?_⟩
  · intro j hj
    have := hmax j (by omega)
    rwa [getD_distsEq p e hlen j hj, getD_distsEq p e hlen _ (by omega)] at this
  · intro j hj
    have := hfirst j hj
    rwa [getD_distsEq p e hlen j (by omega), getD_distsEq p e hlen _ (by omega)] at this

/-- C1: for every strictly increasing parameter list of length at least
two and equal-length error list, the selector returns the parameter value
`p_k` at an index `k` maximizing `(slope * p_k + intercept) - e_k`, where
`slope = (e_n - e_1) / (p_n - p_1)` and `intercept = e_1 - slope * p_1`. -/
theorem elbow_returns_max (p : List ℤ) (e : List ℚ) (hp : p.Pairwise (· < ·))
    (h2 : 2 ≤ p.length) (hlen : e.length = p.length) :
    ∃ k, k < p.length ∧ best_n p e = .ok (p.getD k 0) ∧
      ∀ j, j < p.length → specDist p e j ≤ specDist p e k := by
  obtain ⟨k, hk, heq, hmax, -⟩ := best_n_valid p e hp h2 hlen
  exact ⟨k, hk, heq, hmax⟩

/-- Witness for C1 at parameters `[1,2,3,4,5]`, errors `[10,8,3,7,9]`. -/
theorem elbow_returns_max_witness :
    ∃ k, k < ([1, 2, 3, 4, 5] : List ℤ).length ∧
      best_n [1, 2, 3, 4, 5] [10, 8, 3, 7, 9] = .ok (([1, 2, 3, 4, 5] : List ℤ).getD k 0) ∧
      ∀ j, j < ([1, 2, 3, 4, 5] : List ℤ).length →
        specDist [1, 2, 3, 4, 5] [10, 8, 3, 7, 9] j ≤ specDist [1, 2, 3, 4, 5] [10, 8, 3, 7, 9] k :=
  elbow_returns_max [1, 2, 3, 4, 5] [10, 8, 3, 7, 9] (by decide) (by decide) (by decide)

/-- C2: on parameters `[1,2,3,4,5]` and errors `[10,8,3,7,9]` the selector
returns 3; the slope is `-1/4`, the line values are
`[10, 9.75, 9.5, 9.25, 9]` and the distances below the line are
`[0, 1.75, 6.5, 2.25, 0]`. -/
theorem elbow_concrete_example :
    best_n [1, 2, 3, 4, 5] [10, 8, 3, 7, 9] = .ok 3 ∧
    slope [1, 2, 3, 4, 5] [10, 8, 3, 7, 9] = -(1 / 4) ∧
    lineVals [1, 2, 3, 4, 5] (slope [1, 2, 3, 4, 5] [10, 8, 3, 7, 9])
        (intercept [1, 2, 3, 4, 5] [10, 8, 3, 7, 9])
      = [10, 39 / 4, 19 / 2, 37 / 4, 9] ∧
    distsEq [1, 2, 3, 4, 5] [10, 8, 3, 7, 9] = [0, 7 / 4, 13 / 2, 9 / 4, 0] := by
  refine ⟨?_, ?_, ?_, ?_⟩
  · norm_num [best_n, slope, intercept, lineVals, bcastSub, argmax, argmaxAux]
  · norm_num [slope]
  · norm_num [lineVals, slope, intercept]
  · norm_num [distsEq, lineVals, slope, intercept]

/-- C3: on every valid input the selected index is the first maximizer of
`(slope * p_k + intercept) - e_k` (every strictly earlier index scores
strictly less), and when the errors lie exactly on the line through the
first and last points the selector returns the first parameter value. -/
theorem elbow_tie_break_first (p : List ℤ) (e : List ℚ) (hp : p.Pairwise (· < ·))
    (h2 : 2 ≤ p.length) (hlen : e.length = p.length) :
    (∃ k, k < p.length ∧ best_n p e = .ok (p.getD k 0) ∧
      (∀ j, j < p.length → specDist p e j ≤ specDist p e k) ∧
      (∀ j, j < k → specDist p e j < specDist p e k)) ∧
    ((∀ j, j < p.length →
        e.getD j 0 = slope p e * ((p.getD j 0 : ℤ) : ℚ) + intercept p e) →
      best_n p e = .ok (p.headD 0)) := by
  obtain ⟨k, hk, heq, hmax, hfirst⟩ := best_n_valid p e hp h2 hlen
  refine ⟨⟨k, hk, heq, hmax, hfirst⟩, ?_⟩
  intro hline
  have hz : ∀ j, j < p.length → specDist p e j = 0 := by
    intro j hj
    rw [specDist, hline j hj]
    ring
  have hk0 : k = 0 := by
    by_contra hne
    have h0 : specDist p e 0 < specDist p e k := hfirst 0 (by omega)
    rw [hz 0 (by omega), hz k hk] at h0
    exact lt_irrefl 0 h0
  rw [hk0] at heq
  rw [heq, headD_eq_getD p 0 (by intro hn; rw [hn] at h2; simp at h2)]

/-- Witness for C3 at parameters `[1,2,3]`, perfectly linear errors
`[2,2,2]`. -/
theorem elbow_tie_break_first_witness :
    (∃ k, k < ([1, 2, 3] : List ℤ).length ∧
      best_n [1, 2, 3] [2, 2, 2] = .ok (([1, 2, 3] : List ℤ).getD k 0) ∧
      (∀ j, j < ([1, 2, 3] : List ℤ).length →
        specDist [1, 2, 3] [2, 2, 2] j ≤ specDist [1, 2, 3] [2, 2, 2] k) ∧
      (∀ j, j < k → specDist [1, 2, 3] [2, 2, 2] j < specDist [1, 2, 3] [2, 2, 2] k)) ∧
    ((∀ j, j < ([1, 2, 3] : List ℤ).length →
        ([2, 2, 2] : List ℚ).getD j 0 = slope [1, 2, 3] [2, 2, 2] *
          ((([1, 2, 3] : List ℤ).getD j 0 : ℤ) : ℚ) + intercept [1, 2, 3] [2, 2, 2]) →
      best_n [1, 2, 3] [2, 2, 2] = .ok (([1, 2, 3] : List ℤ).headD 0)) :=
  elbow_tie_break_first [1, 2, 3] [2, 2, 2] (by decide) (by decide) (by decide)

/-- C4: on every strictly increasing parameter list of length at least two
with an equal-length error list, the returned value is an element of the
parameter list. -/
theorem elbow_returns_member (p : List ℤ) (e : List ℚ) (hp : p.Pairwise (· < ·))
    (h2 : 2 ≤ p.length) (hlen : e.length = p.length) :
    ∃ v, best_n p e = .ok v ∧ v ∈ p := by
  obtain ⟨k, hk, heq, -, -⟩ := best_n_valid p e hp h2 hlen
  refine ⟨p.getD k 0, heq, ?_⟩
  rw [List.getD_eq_getElem _ _ hk]
  exact List.getElem_mem hk

/-- Witness for C4 at parameters `[1,2]`, errors `[5,3]`. -/
theorem elbow_returns_member_witness :
    ∃ v, best_n [1, 2] [5, 3] = .ok v ∧ v ∈ ([1, 2] : List ℤ) :=
  elbow_returns_member [1, 2] [5, 3] (by decide) (by decide) (by decide)

/-- C5: when exactly one interior point has a uniquely minimal error and
every other point lies exactly on the line through the first and last
points, the selector returns that interior parameter value. -/
theorem elbow_unique_interior_dip (p : List ℤ) (e : List ℚ)
    (hp : p.Pairwise (· < ·)) (h2 : 2 ≤ p.length) (hlen : e.length = p.length)
    (m : Nat) (hm0 : 0 < m) (hmn : m < p.length - 1)
    (hline : ∀ j, j < p.length → j ≠ m →
      e.getD j 0 = slope p e * ((p.getD j 0 : ℤ) : ℚ) + intercept p e)
    (hmin : ∀ j, j < p.length → j ≠ m → e.getD m 0 < e.getD j 0) :
    best_n p e = .ok (p.getD m 0) := by
  obtain ⟨k, hk, heq, hmax, -⟩ := best_n_valid p e hp h2 hlen
  have hm : m < p.length := by omega
  have hzero : ∀ j, j < p.length → j ≠ m → specDist p e j = 0 := by
    intro j hj hjm
    rw [specDist, hline j hj hjm]
    ring
  have hpos : 0 < specDist p e m := by
    rw [specDist]
    have h0line := hline 0 (by omega) (by omega)
    have hlline := hline (p.length - 1) (by omega) (by omega)
    have h0m : ((p.getD 0 0 : ℤ) : ℚ) < ((p.getD m 0 : ℤ) : ℚ) := by
      exact_mod_cast pairwise_getD_lt p hp 0 m hm0 hm
    have hmlast : ((p.getD m 0 : ℤ) : ℚ) < ((p.getD (p.length - 1) 0 : ℤ) : ℚ) := by
      exact_mod_cast pairwise_getD_lt p hp m (p.length - 1) (by omega) (by omega)
    have hm0e := hmin 0 (by omega) (by omega)
    have hmle := hmin (p.length - 1) (by omega) (by omega)
    rcases le_or_lt 0 (slope p e) with hs | hs
    · have hmul : slope p e * ((p.getD 0 0 : ℤ) : ℚ) ≤ slope p e * ((p.getD m 0 : ℤ) : ℚ) :=
        mul_le_mul_of_nonneg_left (le_of_lt h0m) hs
      linarith
    · have hmul : slope p e * ((p.getD (p.length - 1) 0 : ℤ) : ℚ)
          ≤ slope p e * ((p.getD m 0 : ℤ) : ℚ) :=
        mul_le_mul_of_nonpos_left (le_of_lt hmlast) (le_of_lt hs)
      linarith
  have hkm : k = m := by
    by_contra hne
    have h1 := hmax m hm
    have h2' := hzero k hk hne
    linarith
  rw [hkm] at heq
  exact heq

/-- Witness for C5 at parameters `[1,2,3]`, errors `[5,1,5]`, dip at the
middle index. -/
theorem elbow_unique_interior_dip_witness :
    best_n [1, 2, 3] [5, 1, 5] = .ok (([1, 2, 3] : List ℤ).getD 1 0) :=
  elbow_unique_interior_dip [1, 2, 3] [5, 1, 5] (by decide) (by decide) (by decide)
    1 (by decide) (by decide)
    (by
      intro j hj hjm
      have hj3 : j < 3 := by simpa using hj
      interval_cases j
      · norm_num [slope, intercept]
      · exact absurd rfl hjm
      · norm_num [slope, intercept])
    (by
      intro j hj hjm
      have hj3 : j < 3 := by simpa using hj
      interval_cases j
      · norm_num
      · exact absurd rfl hjm
      · norm_num)

/-- C6 counterexample: the parameter list `[1,3,2]` is not strictly
increasing, yet the selector performs no validation and returns a value
instead of failing. -/
theorem elbow_no_monotonicity_check_cex :
    ¬ ([1, 3, 2] : List ℤ).Pairwise (· < ·) ∧
    best_n [1, 3, 2] [0, 5, 0] = .ok 1 :=
  ⟨by decide, by norm_num [best_n, slope, intercept, lineVals, bcastSub, argmax, argmaxAux]⟩

/-- C6 amended: with equal-length inputs the selector fails on fewer than
two points — `IndexError` for empty input, `ZeroDivisionError` for a
single point (its zero-width range) — but performs no monotonicity or
finiteness validation: any input with distinct first and last parameter
values succeeds. -/
theorem elbow_short_input_failures (p : List ℤ) (e : List ℚ)
    (hlen : e.length = p.length) :
    (p.length = 0 → best_n p e = .error .indexError) ∧
    (p.length = 1 → best_n p e = .error .zeroDivisionError) ∧
    (2 ≤ p.length → p.getLastD 0 ≠ p.headD 0 → ∃ v, best_n p e = .ok v) := by
  refine ⟨?_, ?_, ?_⟩
  · intro h0
    have hp : p = [] := List.length_eq_zero.mp h0
    subst hp
    simp [best_n]
  · intro h1
    obtain ⟨x, hx⟩ := List.length_eq_one.mp h1
    obtain ⟨y, hy⟩ := List.length_eq_one.mp (hlen.trans h1)
    subst hx
    subst hy
    simp [best_n]
  · intro h2 hne
    exact ⟨_, best_n_eq p e h2 hlen hne⟩

/-- Witness for the amended C6: empty input, single point `[7]`, and the
successful two-point sweep `[1,2]`. -/
theorem elbow_short_input_failures_witness :
    best_n [] ([] : List ℚ) = .error .indexError ∧
    best_n [7] [1] = .error .zeroDivisionError ∧
    ∃ v, best_n [1, 2] [3, 5] = .ok v :=
  ⟨(elbow_short_input_failures [] [] rfl).1 rfl,
   (elbow_short_input_failures [7] [1] rfl).2.1 rfl,
   (elbow_short_input_failures [1, 2] [3, 5] rfl).2.2 (by decide) (by decide)⟩

/-- C7: whenever the first and last parameter values coincide (and the
inputs are nonempty, so that line 1 reaches the division), the selector
fails with the zero-division error of the slope computation — the
degenerate-sweep failure — and surfaces it. -/
theorem elbow_degenerate_range_fails (p : List ℤ) (e : List ℚ)
    (hpne : p ≠ []) (hene : e ≠ []) (hdeg : p.getLastD 0 = p.headD 0) :
    best_n p e = .error .zeroDivisionError := by
  have hc : ¬(e.isEmpty = true ∨ p.isEmpty = true) := by
    simp [List.isEmpty_iff, hpne, hene]
  rw [best_n, if_neg hc, if_pos hdeg]

/-- Witness for C7 at the spec example `[4,4]`. -/
theorem elbow_degenerate_range_fails_witness :
    best_n [4, 4] [1, 2] = .error .zeroDivisionError :=
  elbow_degenerate_range_fails [4, 4] [1, 2] (by decide) (by decide) rfl

/-- C8: the elbow cell never mutates its inputs — after running it the
`n_est` and `val_mad` globals are unchanged — and its result is a pure
function of those two inputs alone. -/
theorem elbow_cell_pure (s : NotebookState) :
    (runElbowCell s).1.n_est = s.n_est ∧ (runElbowCell s).1.val_mad = s.val_mad ∧
    (runElbowCell s).2 = best_n s.n_est s.val_mad := by
  by_cases h1 : (s.val_mad.isEmpty = true ∨ s.n_est.isEmpty = true)
  · have hr : runElbowCell s = (s, .error .indexError) := by
      unfold runElbowCell
      rw [if_pos h1]
    have hb : best_n s.n_est s.val_mad = .error .indexError := by
      unfold best_n
      rw [if_pos h1]
    rw [hr, hb]
    exact ⟨rfl, rfl, rfl⟩
  · by_cases h2 : s.n_est.getLastD 0 = s.n_est.headD 0
    · have hr : runElbowCell s = (s, .error .zeroDivisionError) := by
        unfold runElbowCell
        rw [if_neg h1, if_pos h2]
      have hb : best_n s.n_est s.val_mad = .error .zeroDivisionError := by
        unfold best_n
        rw [if_neg h1, if_pos h2]
      rw [hr, hb]
      exact ⟨rfl, rfl, rfl⟩
    · unfold runElbowCell best_n
      rw [if_neg h1, if_neg h1, if_neg h2, if_neg h2]
      cases hbs : bcastSub (lineVals s.n_est (slope s.n_est s.val_mad)
          (intercept s.n_est s.val_mad)) s.val_mad with
      | error err => simp [hbs]
      | ok dists =>
        simp only [hbs]
        cases hg : s.n_est.get? (argmax dists) with
        | some v => simp [hg]
        | none => simp [hg]

/-- C9: adding the same finite constant to every error value leaves the
selector's outcome unchanged. -/
theorem elbow_translation_invariant (p : List ℤ) (e : List ℚ) (c : ℚ) :
    best_n p (e.map (fun x => x + c)) = best_n p e := by
  by_cases he : e = []
  · subst he
    rfl
  · by_cases hp : p = []
    · subst hp
      simp [best_n]
    · have hc1 : ¬((e.map (fun x => x + c)).isEmpty = true ∨ p.isEmpty = true) := by
        simp [List.isEmpty_iff, hp, he]
      have hc2 : ¬(e.isEmpty = true ∨ p.isEmpty = true) := by
        simp [List.isEmpty_iff, hp, he]
      rw [best_n, best_n, if_neg hc1, if_neg hc2]
      by_cases hdeg : p.getLastD 0 = p.headD 0
      · rw [if_pos hdeg, if_pos hdeg]
      · rw [if_neg hdeg, if_neg hdeg]
        have hsl : slope p (e.map (fun x => x + c)) = slope p e := by
          rw [slope, slope, getLastD_map_rat _ _ he, headD_map_rat _ _ he]
          ring
        have hic : intercept p (e.map (fun x => x + c)) = intercept p e + c := by
          rw [intercept, intercept, headD_map_rat _ _ he, hsl]
          ring
        rw [hsl, hic, lineVals_add_const, bcastSub_map_add]

/-- C10: with at least two points, a nonzero parameter range and
equal-length inputs, the arg-max over the distances array is an in-bounds
index and the final parameter lookup succeeds. -/
theorem elbow_index_safe (p : List ℤ) (e : List ℚ) (h2 : 2 ≤ p.length)
    (hlen : e.length = p.length) (hne : p.getLastD 0 ≠ p.headD 0) :
    argmax (distsEq p e) < p.length ∧
    best_n p e = .ok (p.getD (argmax (distsEq p e)) 0) := by
  have hdne := distsEq_ne_nil p e (by omega) hlen
  have hlt : argmax (distsEq p e) < p.length := by
    have h := (argmax_spec _ hdne).1
    rwa [length_distsEq p e hlen] at h
  exact ⟨hlt, best_n_eq p e h2 hlen hne⟩

/-- Witness for C10 at parameters `[1,2]`, errors `[3,5]`. -/
theorem elbow_index_safe_witness :
    argmax (distsEq [1, 2] [3, 5]) < ([1, 2] : List ℤ).length ∧
    best_n [1, 2] [3, 5] = .ok (([1, 2] : List ℤ).getD (argmax (distsEq [1, 2] [3, 5])) 0) :=
  elbow_index_safe [1, 2] [3, 5] (by decide) (by decide) (by decide)

end Elbow
